import Mathlib

/-!
# In-memory partition of tstorage

A shallow embedding of `partition/memory/memory_partition.go`.

* The partition is a record; every method takes the record and returns the
  record after the call together with the method's result.
* `int64` timestamps are integers; the one place where the source computes
  with them, the subtraction of `ReadOnly`, wraps to 64 bits (`wrapInt64`).
* `size` counts the data points that are held in memory.  A count of
  in-memory values cannot reach `2^63`, so `atomic.AddInt64` never wraps on
  it and the sum is exact; likewise `rowsNum` is at most `len(rows)`.
* A `float64` value is only stored and handed back, so it is carried as its
  bit pattern.
* `sync.Map` is an association list in order of first `Store`; `Range`
  visits it in that order (the source promises no particular order).
* A `*metric` obtained from `getMetric` aliases the value in the map: a
  mutation through the pointer is written back under the same key
  (`setMetric`).
* `InsertRowsTraced` is `InsertRows` with the calls it makes on the log and
  on the point buffers listed in program order.
* Two goroutines inside `getMetric` are a step function under a schedule
  (`raceRun`), with `Load` and `Store` as atomic steps and the directory
  holding pointers.
-/

set_option maxRecDepth 8000

namespace Tstorage

/-- Bit pattern of a `float64`. -/
structure Float64 where
  bits : Nat
  deriving DecidableEq, Repr

/-- The `partition.DataPoint` struct, as it is built in `SelectAll`. -/
structure DataPoint where
  Timestamp : Int
  Value : Float64
  deriving DecidableEq, Repr

/-- The `partition.Row` struct: a metric name and an embedded `DataPoint`. -/
structure Row extends DataPoint where
  MetricName : String
  deriving DecidableEq, Repr

/-- Go `error`: `none` is `nil`, `some msg` an error with that message. -/
abbrev error := Option String

/-- Two's complement wrap-around of a 64 bit signed result. -/
def wrapInt64 (x : Int) : Int := (x + 2 ^ 63) % 2 ^ 64 - 2 ^ 63

/-! ## Point buffer -/

/-- The `metric` struct, with the fields set in `getMetric`. -/
structure metric where
  name : String
  points : List DataPoint
  lastIndex : Int
  deriving DecidableEq, Repr

/-- Modelled from the spec: `metric.insertPoint` is not among the sources.
Section 4.3, Append: adds the point to the end of the sequence and moves the
last-inserted cursor to the new end position; no sorting, no deduplication. -/
def metric.insertPoint (mt : metric) (point : DataPoint) : metric :=
  { mt with points := mt.points ++ [point], lastIndex := (mt.points.length : Int) }

/-- Modelled from the spec: `metric.selectPoints` is not among the sources.
Section 4.3, SelectRange: every stored point whose timestamp falls in
`[start, end)`, in stored order. -/
def metric.selectPoints (mt : metric) (start stop : Int) : List DataPoint :=
  mt.points.filter (fun p => decide (start ≤ p.Timestamp) && decide (p.Timestamp < stop))

/-! ## Write-ahead log -/

/-- The operation tag of a log entry (`wal.OperationInsert`). -/
inductive Operation where
  | OperationInsert
  deriving DecidableEq, Repr

/-- The `wal.Entry` struct. -/
structure Entry where
  Operation : Operation
  Rows : List Row
  deriving DecidableEq, Repr

/-- Modelled from the spec: the `wal.WAL` interface is not among the sources.
Section 6: `Append(entry) → success or error`, an append-only sink.
`entries` are the entries handed to `Append` so far, oldest first; `failing`
tells whether `Append` reports an error. -/
structure WAL where
  entries : List Entry
  failing : Bool
  deriving DecidableEq, Repr

/-- Modelled from the spec: `WAL.Append` of the absent `wal` package, see `WAL`. -/
def WAL.Append (w : WAL) (e : Entry) : WAL × error :=
  ({ w with entries := w.entries ++ [e] },
    if w.failing then some "wal: append failed" else none)

/-! ## The metric directory (`sync.Map`) -/

/-- `sync.Map.Load`: the value stored under a key. -/
def Load : List (String × metric) → String → Option metric
  | [], _ => none
  | (k, v) :: rest, name => if k = name then some v else Load rest name

/-- `sync.Map.Store`: replaces the value of a present key, adds an absent one. -/
def Store : List (String × metric) → String → metric → List (String × metric)
  | [], name, v => [(name, v)]
  | (k, w) :: rest, name, v =>
    if k = name then (k, v) :: rest else (k, w) :: Store rest name v

/-! ## Partition -/

/-- The `memoryPartition` struct. -/
structure memoryPartition where
  metrics : List (String × metric)
  wal : Option WAL
  size : Int
  partitionDuration : Int
  minTimestamp : Int
  maxTimestamp : Int
  deriving DecidableEq, Repr

/-- `NewMemoryPartition`: `d` is the `time.Duration` in nanoseconds, and
`Duration.Milliseconds` is the truncating division by `1e6`. -/
def NewMemoryPartition (wal : Option WAL) (d : Int) : memoryPartition :=
  { metrics := [], wal := wal, size := 0, partitionDuration := Int.tdiv d 1000000,
    minTimestamp := 0, maxTimestamp := 0 }

/-- `memoryPartition.MinTimestamp`. -/
def MinTimestamp (m : memoryPartition) : Int := m.minTimestamp

/-- `memoryPartition.MaxTimestamp`. -/
def MaxTimestamp (m : memoryPartition) : Int := m.maxTimestamp

/-- `memoryPartition.Size`. -/
def Size (m : memoryPartition) : Int := m.size

/-- `memoryPartition.ReadOnly`: the `int64` subtraction wraps. -/
def ReadOnly (m : memoryPartition) : Bool :=
  decide (wrapInt64 (MaxTimestamp m - MinTimestamp m) > m.partitionDuration)

/-- `memoryPartition.ReadyToBePersisted`. -/
def ReadyToBePersisted (m : memoryPartition) : Bool := ReadOnly m

/-- `memoryPartition.getMetric`: the partition after the call and the metric
the returned pointer refers to. -/
def getMetric (m : memoryPartition) (name : String) : memoryPartition × metric :=
  match Load m.metrics name with
  | some value => (m, value)
  | none =>
    let value : metric := { name := name, points := [], lastIndex := -1 }
    ({ m with metrics := Store m.metrics name value }, value)

/-- Writing through the pointer `getMetric m name` returned: the metric stored
under `name` becomes `mt`. -/
def setMetric (m : memoryPartition) (name : String) (mt : metric) : memoryPartition :=
  { m with metrics := Store m.metrics name mt }

/-- The `for _, row := range rows` loop of `InsertRows`, with its local
variables `minTimestamp`, `maxTimestamp` and `rowsNum`. -/
def rangeRows (m : memoryPartition) (minTimestamp maxTimestamp rowsNum : Int) :
    List Row → memoryPartition × Int × Int × Int
  | [] => (m, minTimestamp, maxTimestamp, rowsNum)
  | row :: rest =>
    let minTimestamp := if row.Timestamp < minTimestamp then row.Timestamp else minTimestamp
    let maxTimestamp := if row.Timestamp > maxTimestamp then row.Timestamp else maxTimestamp
    let r := getMetric m row.MetricName
    let m := setMetric r.1 row.MetricName (r.2.insertPoint row.toDataPoint)
    rangeRows m minTimestamp maxTimestamp (rowsNum + 1) rest

/-- `memoryPartition.InsertRows`. -/
def InsertRows (m : memoryPartition) (rows : List Row) : memoryPartition × error :=
  match rows with
  | [] => (m, some "no row was given")
  | row0 :: _ =>
    if ReadOnly m then (m, some "read only partition")
    else
      let m1 : memoryPartition :=
        match m.wal with
        | some w => { m with wal := some (w.Append ⟨Operation.OperationInsert, rows⟩).1 }
        | none => m
      let r := rangeRows m1 row0.Timestamp row0.Timestamp 0 rows
      let m2 : memoryPartition := { r.1 with size := r.1.size + r.2.2.2 }
      let m3 : memoryPartition :=
        if m2.minTimestamp = 0 ∨ m2.minTimestamp > r.2.1 then
          { m2 with minTimestamp := r.2.1 } else m2
      let m4 : memoryPartition :=
        if m3.maxTimestamp < r.2.2.1 then { m3 with maxTimestamp := r.2.2.1 } else m3
      (m4, none)

/-- `memoryPartition.SelectRows`. -/
def SelectRows (m : memoryPartition) (metricName : String) (start stop : Int) :
    memoryPartition × List DataPoint :=
  let r := getMetric m metricName
  (r.1, r.2.selectPoints start stop)

/-- The callback of `metrics.Range` in `SelectAll`: the rows of one entry. -/
def rowsOf (k : String) (mt : metric) : List Row :=
  mt.points.map (fun point =>
    { MetricName := k, Timestamp := point.Timestamp, Value := point.Value })

/-- `memoryPartition.SelectAll`; the state is not written. -/
def SelectAll (m : memoryPartition) : List Row :=
  m.metrics.foldl (fun rows kv => rows ++ rowsOf kv.1 kv.2) []

/-! ## Functional description of the insert loop -/

/-- The effect of one loop iteration of `InsertRows` on the metric directory:
`getMetric` followed by `insertPoint` through the returned pointer. -/
def addRow (ms : List (String × metric)) (row : Row) : List (String × metric) :=
  match Load ms row.MetricName with
  | some value => Store ms row.MetricName (value.insertPoint row.toDataPoint)
  | none =>
    Store (Store ms row.MetricName { name := row.MetricName, points := [], lastIndex := -1 })
      row.MetricName
      (metric.insertPoint { name := row.MetricName, points := [], lastIndex := -1 }
        row.toDataPoint)

/-- The value of the local `minTimestamp` after the loop ran over `rows`. -/
def batchMin (a : Int) : List Row → Int
  | [] => a
  | row :: rest => batchMin (if row.Timestamp < a then row.Timestamp else a) rest

/-- The value of the local `maxTimestamp` after the loop ran over `rows`. -/
def batchMax (b : Int) : List Row → Int
  | [] => b
  | row :: rest => batchMax (if row.Timestamp > b then row.Timestamp else b) rest

/-- The points stored under a name; none when the name is absent. -/
def pointsAt (ms : List (String × metric)) (name : String) : List DataPoint :=
  match Load ms name with
  | some mt => mt.points
  | none => []

/-- The rows `Range` produces for a directory, entry by entry. -/
def allRows : List (String × metric) → List Row
  | [] => []
  | kv :: rest => rowsOf kv.1 kv.2 ++ allRows rest

/-- The rows of a batch that belong to one metric, in batch order. -/
def rowsNamed (name : String) (rows : List Row) : List Row :=
  rows.filter (fun r => decide (r.MetricName = name))

/-- The points of a list in the half-open range `[start, stop)`. -/
def inRange (start stop : Int) (ps : List DataPoint) : List DataPoint :=
  ps.filter (fun p => decide (start ≤ p.Timestamp ∧ p.Timestamp < stop))

/-- The names that have an entry in the directory, in directory order. -/
def keys (ms : List (String × metric)) : List String := ms.map Prod.fst

/-- A point with a metric name attached, as `SelectAll` builds its rows. -/
def toRow (name : String) (point : DataPoint) : Row :=
  { MetricName := name, Timestamp := point.Timestamp, Value := point.Value }

/-- The log after a writable `InsertRows`: one more `Append` when a log is configured. -/
def walAfter (w : Option WAL) (rows : List Row) : Option WAL :=
  match w with
  | some w => some (w.Append ⟨Operation.OperationInsert, rows⟩).1
  | none => none

/-- The partition with its write-ahead log replaced. -/
def withWal (m : memoryPartition) (w : Option WAL) : memoryPartition :=
  { m with wal := w }

/-- The in-memory part of the state: everything but the log. -/
def inMemory (m : memoryPartition) : memoryPartition := withWal m none

/-! ## Sequences of calls -/

/-- The batches of a sequence of `InsertRows` calls, applied in order. -/
def insertAll (m : memoryPartition) : List (List Row) → memoryPartition
  | [] => m
  | rows :: rest => insertAll (InsertRows m rows).1 rest

/-- The rows of those calls of a sequence that returned `nil`, in call order. -/
def accepted (m : memoryPartition) : List (List Row) → List Row
  | [] => []
  | rows :: rest =>
    (if (InsertRows m rows).2 = none then rows else []) ++ accepted (InsertRows m rows).1 rest

/-- Every call of a sequence of `InsertRows` calls returns `nil`. -/
def allNil (m : memoryPartition) : List (List Row) → Bool
  | [] => true
  | rows :: rest => decide ((InsertRows m rows).2 = none) && allNil (InsertRows m rows).1 rest

/-- The rows of all batches of a sequence, in call order. -/
def allBatches : List (List Row) → List Row
  | [] => []
  | rows :: rest => rows ++ allBatches rest

/-- A call of the public interface that can touch the state. -/
inductive Call where
  | insertRows (rows : List Row)
  | selectRows (metricName : String) (start stop : Int)
  | selectAll
  deriving DecidableEq, Repr

/-- The state after one call. -/
def Call.run (m : memoryPartition) : Call → memoryPartition
  | .insertRows rows => (InsertRows m rows).1
  | .selectRows metricName start stop => (SelectRows m metricName start stop).1
  | .selectAll => m

/-- The state after a sequence of calls. -/
def runCalls (m : memoryPartition) (cs : List Call) : memoryPartition :=
  cs.foldl Call.run m

/-- What the timestamps of a state say about the rows accepted before it: the
maximum bounds them and is `0` or one of them; the minimum is `0` when there
are none, and otherwise one of them and a lower bound. -/
def Tracks (m : memoryPartition) (acc : List Row) : Prop :=
  (∀ r ∈ acc, r.Timestamp ≤ m.maxTimestamp) ∧
  (m.maxTimestamp = 0 ∨ ∃ r ∈ acc, m.maxTimestamp = r.Timestamp) ∧
  (acc = [] → m.minTimestamp = 0) ∧
  (acc ≠ [] → (∃ r ∈ acc, m.minTimestamp = r.Timestamp) ∧
    ∀ r ∈ acc, m.minTimestamp ≤ r.Timestamp)

/-- The number of points held by all point buffers of a directory. -/
def totalPoints : List (String × metric) → Nat
  | [] => 0
  | kv :: rest => kv.2.points.length + totalPoints rest

/-- The buffer `getMetric` creates for a name that has none. -/
def emptyMetric (name : String) : metric := { name := name, points := [], lastIndex := -1 }

/-! ## The calls `InsertRows` makes, in program order -/

/-- A call `InsertRows` makes on the log or on a point buffer. -/
inductive Event where
  | walAppend (e : Entry)
  | insertPoint (metricName : String) (point : DataPoint)
  deriving DecidableEq, Repr

/-- The loop of `InsertRows` as in `rangeRows`, together with the
`insertPoint` calls it makes, oldest first. -/
def rangeRowsTraced (m : memoryPartition) (minTimestamp maxTimestamp rowsNum : Int) :
    List Row → (memoryPartition × Int × Int × Int) × List Event
  | [] => ((m, minTimestamp, maxTimestamp, rowsNum), [])
  | row :: rest =>
    let minTimestamp := if row.Timestamp < minTimestamp then row.Timestamp else minTimestamp
    let maxTimestamp := if row.Timestamp > maxTimestamp then row.Timestamp else maxTimestamp
    let r := getMetric m row.MetricName
    let m := setMetric r.1 row.MetricName (r.2.insertPoint row.toDataPoint)
    let out := rangeRowsTraced m minTimestamp maxTimestamp (rowsNum + 1) rest
    (out.1, Event.insertPoint row.MetricName row.toDataPoint :: out.2)

/-- `memoryPartition.InsertRows` as in `InsertRows`, together with the calls
it makes on the log and on the point buffers, oldest first. -/
def InsertRowsTraced (m : memoryPartition) (rows : List Row) :
    (memoryPartition × error) × List Event :=
  match rows with
  | [] => ((m, some "no row was given"), [])
  | row0 :: _ =>
    if ReadOnly m then ((m, some "read only partition"), [])
    else
      let logged : memoryPartition × List Event :=
        match m.wal with
        | some w =>
          ({ m with wal := some (w.Append ⟨Operation.OperationInsert, rows⟩).1 },
            [Event.walAppend ⟨Operation.OperationInsert, rows⟩])
        | none => (m, [])
      let r := rangeRowsTraced logged.1 row0.Timestamp row0.Timestamp 0 rows
      let m2 : memoryPartition := { r.1.1 with size := r.1.1.size + r.1.2.2.2 }
      let m3 : memoryPartition :=
        if m2.minTimestamp = 0 ∨ m2.minTimestamp > r.1.2.1 then
          { m2 with minTimestamp := r.1.2.1 } else m2
      let m4 : memoryPartition :=
        if m3.maxTimestamp < r.1.2.2.1 then { m3 with maxTimestamp := r.1.2.2.1 } else m3
      ((m4, none), logged.2 ++ r.2)

/-- Whether a call is an `insertPoint` call. -/
def Event.isInsertPoint : Event → Bool
  | .insertPoint _ _ => true
  | .walAppend _ => false

/-- The `insertPoint` calls for the rows of a batch, in batch order. -/
def pointEvents (rows : List Row) : List Event :=
  rows.map (fun row => Event.insertPoint row.MetricName row.toDataPoint)

/-! ## Two goroutines inside `getMetric`

`sync.Map.Load` and `sync.Map.Store` are each one atomic step; a goroutine
may be preempted between them.  The directory holds `*metric` pointers: a
pointer is a position in the list of allocated metrics. -/

/-- `sync.Map.Load` on the directory of pointers. -/
def LoadPtr : List (String × Nat) → String → Option Nat
  | [], _ => none
  | (k, v) :: rest, name => if k = name then some v else LoadPtr rest name

/-- `sync.Map.Store` on the directory of pointers. -/
def StorePtr : List (String × Nat) → String → Nat → List (String × Nat)
  | [], name, v => [(name, v)]
  | (k, w) :: rest, name, v =>
    if k = name then (k, v) :: rest else (k, w) :: StorePtr rest name v

/-- The memory the goroutines share: the allocated metrics and the directory. -/
structure sharedMemory where
  heap : List metric
  metrics : List (String × Nat)
  deriving DecidableEq, Repr

/-- Where a goroutine stands in `getMetric(name)`: before `Load`; after a
missed `Load` with its new `&metric` allocated, before `Store`; returned. -/
inductive getMetricAt where
  | beforeLoad (name : String)
  | beforeStore (name : String) (value : Nat)
  | returned (value : Nat)
  deriving DecidableEq, Repr

/-- One atomic step of a goroutine in `getMetric`. -/
def getMetricStep (s : sharedMemory) : getMetricAt → sharedMemory × getMetricAt
  | .beforeLoad name =>
    match LoadPtr s.metrics name with
    | some value => (s, .returned value)
    | none =>
      ({ s with heap := s.heap ++ [{ name := name, points := [], lastIndex := -1 }] },
        .beforeStore name s.heap.length)
  | .beforeStore name value =>
    ({ s with metrics := StorePtr s.metrics name value }, .returned value)
  | .returned value => (s, .returned value)

/-- Two goroutines under a schedule: `false` lets the first one take a step,
`true` the second. -/
def raceRun (s : sharedMemory) (a b : getMetricAt) :
    List Bool → sharedMemory × getMetricAt × getMetricAt
  | [] => (s, a, b)
  | false :: rest => raceRun (getMetricStep s a).1 (getMetricStep s a).2 b rest
  | true :: rest => raceRun (getMetricStep s b).1 a (getMetricStep s b).2 rest

/-- `mt.insertPoint(point)` through the pointer `value`. -/
def insertPointAt (s : sharedMemory) (value : Nat) (point : DataPoint) : sharedMemory :=
  match s.heap.get? value with
  | some mt => { s with heap := s.heap.set value (mt.insertPoint point) }
  | none => s

/-- The points of the buffer the directory holds for a name. -/
def pointsSeen (s : sharedMemory) (name : String) : List DataPoint :=
  match LoadPtr s.metrics name with
  | some value =>
    match s.heap.get? value with
    | some mt => mt.points
    | none => []
  | none => []

/-! ## Concrete rows and states used as examples -/

/-- A row at the smallest `int64` timestamp. -/
def cpuMinInt64 : Row :=
  { MetricName := "cpu", Timestamp := -9223372036854775808, Value := ⟨0x3FF0000000000000⟩ }

/-- A row at the largest `int64` timestamp. -/
def cpuMaxInt64 : Row :=
  { MetricName := "cpu", Timestamp := 9223372036854775807, Value := ⟨0x3FF0000000000000⟩ }

/-- A log that holds nothing yet and accepts every `Append`. -/
def emptyWal : WAL := { entries := [], failing := false }

/-- The row `("cpu", 10, 1.0)`. -/
def cpu10 : Row := { MetricName := "cpu", Timestamp := 10, Value := ⟨0x3FF0000000000000⟩ }

/-- The row `("cpu", 20, 2.0)`. -/
def cpu20 : Row := { MetricName := "cpu", Timestamp := 20, Value := ⟨0x4000000000000000⟩ }

/-- The row `("mem", 15, 3.0)`. -/
def mem15 : Row := { MetricName := "mem", Timestamp := 15, Value := ⟨0x4008000000000000⟩ }

/-- The row `("cpu", 0, 1.0)`: a point at the epoch. -/
def cpu0 : Row := { MetricName := "cpu", Timestamp := 0, Value := ⟨0x3FF0000000000000⟩ }


/-- The row `("cpu", 1000, 5.0)`. -/
def cpu1000 : Row := { MetricName := "cpu", Timestamp := 1000, Value := ⟨0x4014000000000000⟩ }

/-- The row `("cpu", 2500, 6.0)`. -/
def cpu2500 : Row := { MetricName := "cpu", Timestamp := 2500, Value := ⟨0x4018000000000000⟩ }

/-- A fresh partition of one second, without a log. -/
def fresh1s : memoryPartition := NewMemoryPartition none 1000000000

/-- A log that holds nothing yet and reports an error on `Append`. -/
def brokenWal : WAL := { entries := [], failing := true }

/-- The one-second partition after `cpu1000` and `cpu2500`: it is read-only. -/
def aged1s : memoryPartition :=
  { (insertAll fresh1s [[cpu1000], [cpu2500]]) with wal := some brokenWal }

/-! ## The directory -/

theorem Load_Store (ms : List (String × metric)) (k n : String) (v : metric) :
    Load (Store ms k v) n = if k = n then some v else Load ms n := by
  induction ms with
  | nil => simp [Store, Load]
  | cons kv rest ih =>
    obtain ⟨k0, w⟩ := kv
    by_cases hk : k0 = k
    · subst hk
      by_cases hn : k0 = n <;> simp [Store, Load, hn]
    · by_cases hn : k0 = n
      · subst hn
        have hne : ¬ k = k0 := fun h => hk h.symm
        simp [Store, Load, hk, hne]
      · simp [Store, Load, hk, hn, ih]

theorem pointsAt_addRow (ms : List (String × metric)) (row : Row) (n : String) :
    pointsAt (addRow ms row) n =
      pointsAt ms n ++ (if row.MetricName = n then [row.toDataPoint] else []) := by
  unfold addRow pointsAt
  cases hl : Load ms row.MetricName with
  | some value =>
    by_cases hn : row.MetricName = n
    · subst hn
      simp [Load_Store, hl, metric.insertPoint]
    · simp [Load_Store, hn]
  | none =>
    by_cases hn : row.MetricName = n
    · subst hn
      simp [Load_Store, hl, metric.insertPoint]
    · simp [Load_Store, hn]

theorem pointsAt_foldl_addRow (rows : List Row) (ms : List (String × metric)) (n : String) :
    pointsAt (rows.foldl addRow ms) n =
      pointsAt ms n ++ (rowsNamed n rows).map Row.toDataPoint := by
  induction rows generalizing ms with
  | nil => simp [rowsNamed]
  | cons row rest ih =>
    rw [List.foldl_cons, ih, pointsAt_addRow]
    by_cases hn : row.MetricName = n <;> simp [rowsNamed, hn]

theorem mem_keys_Store (ms : List (String × metric)) (k x : String) (v : metric) :
    x ∈ keys (Store ms k v) ↔ x ∈ keys ms ∨ x = k := by
  induction ms with
  | nil => simp [Store, keys]
  | cons kv rest ih =>
    obtain ⟨k0, w⟩ := kv
    by_cases hk : k0 = k
    · subst hk
      simp only [Store, if_true, keys, List.map_cons, List.mem_cons]
      tauto
    · have ih2 : x ∈ List.map Prod.fst (Store rest k v) ↔ x ∈ List.map Prod.fst rest ∨ x = k := ih
      simp only [Store, hk, if_false, keys, List.map_cons, List.mem_cons, ih2]
      tauto

theorem nodup_keys_Store (ms : List (String × metric)) (k : String) (v : metric)
    (h : (keys ms).Nodup) : (keys (Store ms k v)).Nodup := by
  induction ms with
  | nil => simp [Store, keys]
  | cons kv rest ih =>
    obtain ⟨k0, w⟩ := kv
    have h2 : k0 ∉ keys rest ∧ (keys rest).Nodup := by
      simpa [keys] using h
    by_cases hk : k0 = k
    · subst hk
      simpa [Store, keys] using h
    · have hmem : k0 ∉ keys (Store rest k v) := by
        rw [mem_keys_Store]
        rintro (hm | hm)
        · exact h2.1 hm
        · exact hk hm
      have hrest := ih h2.2
      simp only [Store, hk, if_false]
      exact List.nodup_cons.2 ⟨hmem, hrest⟩

theorem nodup_keys_addRow (ms : List (String × metric)) (row : Row)
    (h : (keys ms).Nodup) : (keys (addRow ms row)).Nodup := by
  unfold addRow
  cases Load ms row.MetricName with
  | some value => exact nodup_keys_Store _ _ _ h
  | none => exact nodup_keys_Store _ _ _ (nodup_keys_Store _ _ _ h)

theorem nodup_keys_foldl_addRow (rows : List Row) (ms : List (String × metric))
    (h : (keys ms).Nodup) : (keys (rows.foldl addRow ms)).Nodup := by
  induction rows generalizing ms with
  | nil => exact h
  | cons row rest ih => exact ih _ (nodup_keys_addRow ms row h)

theorem rowsNamed_rowsOf (k n : String) (mt : metric) :
    rowsNamed n (rowsOf k mt) = if k = n then mt.points.map (toRow n) else [] := by
  unfold rowsNamed rowsOf
  by_cases hk : k = n
  · subst hk
    rw [if_pos rfl, List.filter_eq_self.2]
    · rfl
    · intro a ha
      obtain ⟨p, -, rfl⟩ := List.mem_map.1 ha
      simp
  · rw [if_neg hk, List.filter_eq_nil_iff]
    intro a ha
    obtain ⟨p, -, rfl⟩ := List.mem_map.1 ha
    simpa using hk

theorem rowsNamed_allRows_absent (ms : List (String × metric)) (n : String)
    (h : n ∉ keys ms) : rowsNamed n (allRows ms) = [] := by
  induction ms with
  | nil => rfl
  | cons kv rest ih =>
    obtain ⟨k0, w⟩ := kv
    have h2 : ¬ n = k0 ∧ n ∉ keys rest := by simpa [keys] using h
    have hk : ¬ k0 = n := fun e => h2.1 e.symm
    have hsplit : rowsNamed n (allRows ((k0, w) :: rest)) =
        rowsNamed n (rowsOf k0 w) ++ rowsNamed n (allRows rest) := by
      simp [allRows, rowsNamed]
    rw [hsplit, rowsNamed_rowsOf, if_neg hk, ih h2.2]
    rfl

theorem rowsNamed_allRows (ms : List (String × metric)) (n : String)
    (h : (keys ms).Nodup) : rowsNamed n (allRows ms) = (pointsAt ms n).map (toRow n) := by
  induction ms with
  | nil => rfl
  | cons kv rest ih =>
    obtain ⟨k0, w⟩ := kv
    have h2 : k0 ∉ keys rest ∧ (keys rest).Nodup := by simpa [keys] using h
    have hsplit : rowsNamed n (allRows ((k0, w) :: rest)) =
        rowsNamed n (rowsOf k0 w) ++ rowsNamed n (allRows rest) := by
      simp [allRows, rowsNamed]
    rw [hsplit, rowsNamed_rowsOf]
    by_cases hk : k0 = n
    · subst hk
      rw [if_pos rfl, rowsNamed_allRows_absent rest k0 h2.1]
      simp [pointsAt, Load]
    · rw [if_neg hk, ih h2.2]
      simp [pointsAt, Load, hk]

theorem SelectAll_eq (m : memoryPartition) : SelectAll m = allRows m.metrics := by
  have h : ∀ (ms : List (String × metric)) (acc : List Row),
      ms.foldl (fun rows kv => rows ++ rowsOf kv.1 kv.2) acc = acc ++ allRows ms := by
    intro ms
    induction ms with
    | nil => intro acc; simp [allRows]
    | cons kv rest ih => intro acc; simp [allRows, ih]
  simpa [SelectAll] using h m.metrics []

theorem SelectRows_eq (m : memoryPartition) (name : String) (start stop : Int) :
    (SelectRows m name start stop).2 = inRange start stop (pointsAt m.metrics name) := by
  unfold SelectRows getMetric pointsAt inRange metric.selectPoints
  cases Load m.metrics name <;> simp [Bool.decide_and]

/-! ## The insert loop -/

theorem rangeRows_eq (rows : List Row) (m : memoryPartition) (a b c : Int) :
    rangeRows m a b c rows =
      ({ m with metrics := rows.foldl addRow m.metrics }, batchMin a rows, batchMax b rows,
        c + rows.length) := by
  induction rows generalizing m a b c with
  | nil => simp [rangeRows, batchMin, batchMax]
  | cons row rest ih =>
    have hstep : setMetric (getMetric m row.MetricName).1 row.MetricName
        ((getMetric m row.MetricName).2.insertPoint row.toDataPoint) =
        { m with metrics := addRow m.metrics row } := by
      unfold getMetric setMetric addRow
      cases hl : Load m.metrics row.MetricName <;> simp
    simp only [rangeRows, hstep, ih, batchMin, batchMax, List.foldl_cons, List.length_cons]
    simp only [Prod.mk.injEq, true_and]
    push_cast
    ring

theorem batchMin_le (rows : List Row) (a : Int) :
    batchMin a rows ≤ a ∧ ∀ row ∈ rows, batchMin a rows ≤ row.Timestamp := by
  induction rows generalizing a with
  | nil => simp [batchMin]
  | cons row rest ih =>
    obtain ⟨h1, h2⟩ := ih (if row.Timestamp < a then row.Timestamp else a)
    have hx : (if row.Timestamp < a then row.Timestamp else a) ≤ a ∧
        (if row.Timestamp < a then row.Timestamp else a) ≤ row.Timestamp := by
      split_ifs <;> constructor <;> omega
    simp only [batchMin, List.mem_cons]
    generalize (if row.Timestamp < a then row.Timestamp else a) = x at h1 h2 hx ⊢
    constructor
    · omega
    · rintro r (rfl | hr)
      · omega
      · exact h2 r hr

theorem batchMin_mem (rows : List Row) (a : Int) :
    batchMin a rows = a ∨ ∃ row ∈ rows, batchMin a rows = row.Timestamp := by
  induction rows generalizing a with
  | nil => simp [batchMin]
  | cons row rest ih =>
    simp only [batchMin, List.mem_cons]
    rcases ih (if row.Timestamp < a then row.Timestamp else a) with h | ⟨r, hr, h⟩
    · split_ifs at h with hlt
      · exact Or.inr ⟨row, Or.inl rfl, by rw [if_pos hlt]; exact h⟩
      · exact Or.inl (by rw [if_neg hlt]; exact h)
    · exact Or.inr ⟨r, Or.inr hr, h⟩

theorem le_batchMax (rows : List Row) (b : Int) :
    b ≤ batchMax b rows ∧ ∀ row ∈ rows, row.Timestamp ≤ batchMax b rows := by
  induction rows generalizing b with
  | nil => simp [batchMax]
  | cons row rest ih =>
    obtain ⟨h1, h2⟩ := ih (if row.Timestamp > b then row.Timestamp else b)
    have hx : b ≤ (if row.Timestamp > b then row.Timestamp else b) ∧
        row.Timestamp ≤ (if row.Timestamp > b then row.Timestamp else b) := by
      split_ifs <;> constructor <;> omega
    simp only [batchMax, List.mem_cons]
    generalize (if row.Timestamp > b then row.Timestamp else b) = x at h1 h2 hx ⊢
    constructor
    · omega
    · rintro r (rfl | hr)
      · omega
      · exact h2 r hr

theorem batchMax_mem (rows : List Row) (b : Int) :
    batchMax b rows = b ∨ ∃ row ∈ rows, batchMax b rows = row.Timestamp := by
  induction rows generalizing b with
  | nil => simp [batchMax]
  | cons row rest ih =>
    simp only [batchMax, List.mem_cons]
    rcases ih (if row.Timestamp > b then row.Timestamp else b) with h | ⟨r, hr, h⟩
    · split_ifs at h with hlt
      · exact Or.inr ⟨row, Or.inl rfl, by rw [if_pos hlt]; exact h⟩
      · exact Or.inl (by rw [if_neg hlt]; exact h)
    · exact Or.inr ⟨r, Or.inr hr, h⟩

/-! ## `InsertRows` on its three paths -/

theorem InsertRows_nil (m : memoryPartition) :
    InsertRows m [] = (m, some "no row was given") := rfl

theorem InsertRows_readOnly (m : memoryPartition) (rows : List Row)
    (hro : ReadOnly m = true) (hne : rows ≠ []) :
    InsertRows m rows = (m, some "read only partition") := by
  cases rows with
  | nil => exact absurd rfl hne
  | cons row0 rest => simp [InsertRows, hro]

theorem InsertRows_writable (m : memoryPartition) (row0 : Row) (rest : List Row)
    (hro : ReadOnly m = false) :
    InsertRows m (row0 :: rest) =
      ({ metrics := (row0 :: rest).foldl addRow m.metrics
         wal := walAfter m.wal (row0 :: rest)
         size := m.size + ((row0 :: rest).length : Int)
         partitionDuration := m.partitionDuration
         minTimestamp :=
           if m.minTimestamp = 0 ∨ m.minTimestamp > batchMin row0.Timestamp (row0 :: rest)
           then batchMin row0.Timestamp (row0 :: rest) else m.minTimestamp
         maxTimestamp :=
           if m.maxTimestamp < batchMax row0.Timestamp (row0 :: rest)
           then batchMax row0.Timestamp (row0 :: rest) else m.maxTimestamp }, none) := by
  unfold InsertRows
  simp only [hro, rangeRows_eq, Bool.false_eq_true, if_false]
  cases hw : m.wal <;> simp only [walAfter, Prod.mk.injEq, and_true] <;>
    split_ifs <;> simp_all

theorem InsertRows_error (m : memoryPartition) (rows : List Row) :
    (InsertRows m rows).2 =
      if rows = [] then some "no row was given"
      else if ReadOnly m = true then some "read only partition" else none := by
  cases rows with
  | nil => rfl
  | cons row0 rest =>
    cases hro : ReadOnly m
    · rw [InsertRows_writable m row0 rest hro]; simp
    · rw [InsertRows_readOnly m _ hro (by simp)]; simp

/-! ## The timestamps after a successful insert -/

theorem InsertRows_span (m : memoryPartition) (rows : List Row)
    (hok : (InsertRows m rows).2 = none) :
    ∃ lo hi : Int,
      (∀ r ∈ rows, lo ≤ r.Timestamp ∧ r.Timestamp ≤ hi) ∧
      (∃ r ∈ rows, lo = r.Timestamp) ∧ (∃ r ∈ rows, hi = r.Timestamp) ∧
      (InsertRows m rows).1.minTimestamp =
        (if m.minTimestamp = 0 ∨ m.minTimestamp > lo then lo else m.minTimestamp) ∧
      (InsertRows m rows).1.maxTimestamp =
        (if m.maxTimestamp < hi then hi else m.maxTimestamp) := by
  cases rows with
  | nil => simp [InsertRows] at hok
  | cons row0 rest =>
    cases hro : ReadOnly m with
    | true => rw [InsertRows_readOnly m _ hro (by simp)] at hok; simp at hok
    | false =>
      rw [InsertRows_writable m row0 rest hro]
      refine ⟨batchMin row0.Timestamp (row0 :: rest), batchMax row0.Timestamp (row0 :: rest),
        ?_, ?_, ?_, rfl, rfl⟩
      · intro r hr
        exact ⟨(batchMin_le _ _).2 r hr, (le_batchMax _ _).2 r hr⟩
      · rcases batchMin_mem (row0 :: rest) row0.Timestamp with h | h
        · exact ⟨row0, List.mem_cons_self _ _, h⟩
        · exact h
      · rcases batchMax_mem (row0 :: rest) row0.Timestamp with h | h
        · exact ⟨row0, List.mem_cons_self _ _, h⟩
        · exact h

theorem InsertRows_rejected (m : memoryPartition) (rows : List Row)
    (herr : (InsertRows m rows).2 ≠ none) : (InsertRows m rows).1 = m := by
  cases rows with
  | nil => rfl
  | cons row0 rest =>
    cases hro : ReadOnly m with
    | true => rw [InsertRows_readOnly m _ hro (by simp)]
    | false => rw [InsertRows_writable m row0 rest hro] at herr; simp at herr

theorem InsertRows_order (m : memoryPartition) (rows : List Row)
    (h : m.minTimestamp ≤ m.maxTimestamp) :
    (InsertRows m rows).1.minTimestamp ≤ (InsertRows m rows).1.maxTimestamp := by
  by_cases hok : (InsertRows m rows).2 = none
  · obtain ⟨lo, hi, hall, ⟨r, hr, hlo⟩, -, hmin, hmax⟩ := InsertRows_span m rows hok
    have hr2 := hall r hr
    rw [hmin, hmax]
    split_ifs <;> omega
  · rw [InsertRows_rejected m rows hok]; exact h

theorem accepted_max (batches : List (List Row)) (m : memoryPartition) (pre : List Row)
    (h : ∀ r ∈ pre, r.Timestamp ≤ m.maxTimestamp) :
    ∀ r ∈ pre ++ accepted m batches, r.Timestamp ≤ (insertAll m batches).maxTimestamp := by
  induction batches generalizing m pre with
  | nil => simpa [accepted, insertAll] using h
  | cons rows rest ih =>
    simp only [accepted, insertAll, ← List.append_assoc]
    apply ih
    by_cases hok : (InsertRows m rows).2 = none
    · obtain ⟨lo, hi, hall, -, -, -, hmax⟩ := InsertRows_span m rows hok
      simp only [hok, if_true, List.mem_append]
      rintro r (hr | hr)
      · have := h r hr
        rw [hmax]; split_ifs <;> omega
      · have := (hall r hr).2
        rw [hmax]; split_ifs <;> omega
    · simp only [hok, if_false, List.append_nil, InsertRows_rejected m rows hok]
      exact h

theorem accepted_tracks (batches : List (List Row)) (m : memoryPartition) (pre : List Row)
    (hnz : ∀ r ∈ pre ++ accepted m batches, r.Timestamp ≠ 0) (h : Tracks m pre) :
    Tracks (insertAll m batches) (pre ++ accepted m batches) := by
  induction batches generalizing m pre with
  | nil => simpa [accepted, insertAll] using h
  | cons rows rest ih =>
    simp only [accepted, insertAll, ← List.append_assoc] at hnz ⊢
    apply ih _ _ hnz
    by_cases hok : (InsertRows m rows).2 = none
    · obtain ⟨lo, hi, hall, ⟨rlo, hrlo, hlo⟩, ⟨rhi, hrhi, hhi⟩, hmin, hmax⟩ :=
        InsertRows_span m rows hok
      obtain ⟨h1, h2, h3, h4⟩ := h
      simp only [hok, if_true]
      have hpre : ∀ r ∈ pre, r.Timestamp ≠ 0 := fun r hr =>
        hnz r (List.mem_append_left _ (List.mem_append_left _ hr))
      refine ⟨?_, ?_, ?_, ?_⟩
      · intro r hr
        rcases List.mem_append.1 hr with hr | hr
        · have := h1 r hr
          rw [hmax]; split_ifs <;> omega
        · have := (hall r hr).2
          rw [hmax]; split_ifs <;> omega
      · rw [hmax]
        split_ifs
        · exact Or.inr ⟨rhi, List.mem_append_right _ hrhi, hhi⟩
        · rcases h2 with h2 | ⟨r, hr, h2⟩
          · exact Or.inl h2
          · exact Or.inr ⟨r, List.mem_append_left _ hr, h2⟩
      · intro hnil
        have : rows = [] := (List.append_eq_nil.1 hnil).2
        subst this
        simp at hrlo
      · intro _
        by_cases hp : pre = []
        · have hm := h3 hp
          subst hp
          rw [hmin, if_pos (Or.inl hm)]
          exact ⟨⟨rlo, by simpa using hrlo, hlo⟩, fun r hr => (hall r (by simpa using hr)).1⟩
        · obtain ⟨⟨r0, hr0, hm0⟩, hlow⟩ := h4 hp
          have hm : m.minTimestamp ≠ 0 := by rw [hm0]; exact hpre r0 hr0
          rw [hmin]
          split_ifs with hc
          · have hc2 : m.minTimestamp > lo := by
              rcases hc with hc | hc
              · exact absurd hc hm
              · exact hc
            refine ⟨⟨rlo, List.mem_append_right _ hrlo, hlo⟩, fun r hr => ?_⟩
            rcases List.mem_append.1 hr with hr | hr
            · have := hlow r hr; omega
            · exact (hall r hr).1
          · have hc2 : lo ≥ m.minTimestamp := by
              by_contra hlt
              exact hc (Or.inr (by omega))
            refine ⟨⟨r0, List.mem_append_left _ hr0, hm0⟩, fun r hr => ?_⟩
            rcases List.mem_append.1 hr with hr | hr
            · exact hlow r hr
            · have := (hall r hr).1; omega
    · simp only [hok, if_false, List.append_nil, InsertRows_rejected m rows hok]
      exact h

theorem Tracks_new (wal : Option WAL) (d : Int) : Tracks (NewMemoryPartition wal d) [] := by
  simp [Tracks, NewMemoryPartition]

/-! ## The directory after a sequence of inserts -/

theorem InsertRows_metrics (m : memoryPartition) (rows : List Row) :
    (InsertRows m rows).1.metrics =
      if (InsertRows m rows).2 = none then rows.foldl addRow m.metrics else m.metrics := by
  by_cases hok : (InsertRows m rows).2 = none
  · rw [if_pos hok]
    cases rows with
    | nil => simp [InsertRows] at hok
    | cons row0 rest =>
      cases hro : ReadOnly m with
      | true => rw [InsertRows_readOnly m _ hro (by simp)] at hok; simp at hok
      | false => rw [InsertRows_writable m row0 rest hro]
  · rw [if_neg hok, InsertRows_rejected m rows hok]

theorem pointsAt_insertAll (batches : List (List Row)) (m : memoryPartition) (n : String) :
    pointsAt (insertAll m batches).metrics n =
      pointsAt m.metrics n ++ (rowsNamed n (accepted m batches)).map Row.toDataPoint := by
  induction batches generalizing m with
  | nil => simp [insertAll, accepted, rowsNamed]
  | cons rows rest ih =>
    simp only [insertAll, accepted]
    rw [ih, InsertRows_metrics]
    by_cases hok : (InsertRows m rows).2 = none
    · simp only [hok, if_true, pointsAt_foldl_addRow]
      simp [rowsNamed, List.filter_append]
    · simp [hok, rowsNamed]

theorem nodup_keys_insertAll (batches : List (List Row)) (m : memoryPartition)
    (h : (keys m.metrics).Nodup) : (keys (insertAll m batches).metrics).Nodup := by
  induction batches generalizing m with
  | nil => exact h
  | cons rows rest ih =>
    simp only [insertAll]
    apply ih
    rw [InsertRows_metrics]
    split_ifs
    · exact nodup_keys_foldl_addRow rows _ h
    · exact h

theorem rowsNamed_SelectAll_insertAll (wal : Option WAL) (d : Int)
    (batches : List (List Row)) (n : String) :
    rowsNamed n (SelectAll (insertAll (NewMemoryPartition wal d) batches)) =
      rowsNamed n (accepted (NewMemoryPartition wal d) batches) := by
  have hnd := nodup_keys_insertAll batches (NewMemoryPartition wal d)
    (by simp [NewMemoryPartition, keys])
  rw [SelectAll_eq, rowsNamed_allRows _ n hnd, pointsAt_insertAll]
  have h0 : pointsAt (NewMemoryPartition wal d).metrics n = [] := rfl
  rw [h0, List.nil_append, List.map_map]
  have hid : ∀ r ∈ rowsNamed n (accepted (NewMemoryPartition wal d) batches),
      (toRow n ∘ Row.toDataPoint) r = r := by
    intro r hr
    have hn : r.MetricName = n := by simpa [rowsNamed] using (List.mem_filter.1 hr).2
    subst hn
    rfl
  calc List.map (toRow n ∘ Row.toDataPoint)
        (rowsNamed n (accepted (NewMemoryPartition wal d) batches))
      = List.map id (rowsNamed n (accepted (NewMemoryPartition wal d) batches)) :=
        List.map_congr_left hid
    _ = rowsNamed n (accepted (NewMemoryPartition wal d) batches) := List.map_id _

theorem accepted_of_allNil (batches : List (List Row)) (m : memoryPartition)
    (h : allNil m batches = true) : accepted m batches = allBatches batches := by
  induction batches generalizing m with
  | nil => rfl
  | cons rows rest ih =>
    simp only [allNil, Bool.and_eq_true, decide_eq_true_eq] at h
    obtain ⟨h1, h2⟩ := h
    simp only [accepted, allBatches, h1, if_true, ih _ h2]

/-! ## Counting the stored points -/

theorem length_allRows (ms : List (String × metric)) :
    (allRows ms).length = totalPoints ms := by
  induction ms with
  | nil => rfl
  | cons kv rest ih => simp [allRows, totalPoints, rowsOf, ih]

theorem totalPoints_Store (ms : List (String × metric)) (k : String) (v : metric) :
    totalPoints (Store ms k v) + (pointsAt ms k).length = totalPoints ms + v.points.length := by
  induction ms with
  | nil => simp [Store, totalPoints, pointsAt, Load]
  | cons kv rest ih =>
    obtain ⟨k0, w⟩ := kv
    by_cases hk : k0 = k
    · subst hk
      simp [Store, totalPoints, pointsAt, Load]
      omega
    · have hp : pointsAt ((k0, w) :: rest) k = pointsAt rest k := by
        simp [pointsAt, Load, hk]
      simp only [Store, hk, if_false, totalPoints, hp]
      omega

theorem totalPoints_addRow (ms : List (String × metric)) (row : Row) :
    totalPoints (addRow ms row) = totalPoints ms + 1 := by
  have hlen : ∀ v : metric, (v.insertPoint row.toDataPoint).points.length =
      v.points.length + 1 := by
    intro v; simp [metric.insertPoint]
  unfold addRow
  cases hl : Load ms row.MetricName with
  | some value =>
    have h := totalPoints_Store ms row.MetricName (value.insertPoint row.toDataPoint)
    have hp : pointsAt ms row.MetricName = value.points := by simp [pointsAt, hl]
    rw [hp, hlen] at h
    simp only []
    omega
  | none =>
    have h1 := totalPoints_Store ms row.MetricName
      { name := row.MetricName, points := [], lastIndex := -1 }
    have h2 := totalPoints_Store
      (Store ms row.MetricName { name := row.MetricName, points := [], lastIndex := -1 })
      row.MetricName
      (metric.insertPoint { name := row.MetricName, points := [], lastIndex := -1 }
        row.toDataPoint)
    have hp1 : pointsAt ms row.MetricName = [] := by simp [pointsAt, hl]
    have hp2 : pointsAt
        (Store ms row.MetricName { name := row.MetricName, points := [], lastIndex := -1 })
        row.MetricName = [] := by simp [pointsAt, Load_Store]
    rw [hp1] at h1
    rw [hp2, hlen] at h2
    simp only [List.length_nil] at h1 h2
    simp only []
    omega

theorem totalPoints_foldl_addRow (rows : List Row) (ms : List (String × metric)) :
    totalPoints (rows.foldl addRow ms) = totalPoints ms + rows.length := by
  induction rows generalizing ms with
  | nil => rfl
  | cons row rest ih =>
    rw [List.foldl_cons, ih, totalPoints_addRow, List.length_cons]
    omega

theorem Store_absent (ms : List (String × metric)) (k : String) (v : metric)
    (h : Load ms k = none) : Store ms k v = ms ++ [(k, v)] := by
  induction ms with
  | nil => rfl
  | cons kv rest ih =>
    obtain ⟨k0, w⟩ := kv
    by_cases hk : k0 = k
    · simp [Load, hk] at h
    · have hr : Load rest k = none := by simpa [Load, hk] using h
      simp [Store, hk, ih hr]

theorem allRows_append (ms ns : List (String × metric)) :
    allRows (ms ++ ns) = allRows ms ++ allRows ns := by
  induction ms with
  | nil => rfl
  | cons kv rest ih => simp [allRows, ih]

theorem getMetric_present (m : memoryPartition) (name : String) (v : metric)
    (h : Load m.metrics name = some v) : getMetric m name = (m, v) := by
  simp [getMetric, h]

theorem getMetric_absent (m : memoryPartition) (name : String)
    (h : Load m.metrics name = none) :
    getMetric m name =
      ({ m with metrics := m.metrics ++ [(name, emptyMetric name)] }, emptyMetric name) := by
  simp [getMetric, h, Store_absent m.metrics name _ h, emptyMetric]

theorem InsertRows_sizeField (m : memoryPartition) (rows : List Row) :
    (InsertRows m rows).1.size =
      if (InsertRows m rows).2 = none then m.size + (rows.length : Int) else m.size := by
  by_cases hok : (InsertRows m rows).2 = none
  · rw [if_pos hok]
    cases rows with
    | nil => simp [InsertRows] at hok
    | cons row0 rest =>
      cases hro : ReadOnly m with
      | true => rw [InsertRows_readOnly m _ hro (by simp)] at hok; simp at hok
      | false => rw [InsertRows_writable m row0 rest hro]
  · rw [if_neg hok, InsertRows_rejected m rows hok]

theorem Call_run_counts (m : memoryPartition) (c : Call)
    (h : m.size = (totalPoints m.metrics : Int)) :
    (c.run m).size = (totalPoints (c.run m).metrics : Int) := by
  cases c with
  | insertRows rows =>
    simp only [Call.run]
    rw [InsertRows_sizeField, InsertRows_metrics]
    split_ifs
    · rw [totalPoints_foldl_addRow, h]; push_cast; rfl
    · exact h
  | selectRows metricName start stop =>
    simp only [Call.run, SelectRows]
    cases hl : Load m.metrics metricName with
    | some v => rw [getMetric_present m _ v hl]; exact h
    | none =>
      rw [getMetric_absent m _ hl]
      have ht : totalPoints (m.metrics ++ [(metricName, emptyMetric metricName)]) =
          totalPoints m.metrics := by
        rw [← length_allRows, allRows_append, ← length_allRows]
        simp [allRows, rowsOf, emptyMetric]
      simp only [ht]
      exact h
  | selectAll => exact h

/-! ## The traced insert -/

theorem rangeRowsTraced_eq (rows : List Row) (m : memoryPartition) (a b c : Int) :
    rangeRowsTraced m a b c rows = (rangeRows m a b c rows, pointEvents rows) := by
  induction rows generalizing m a b c with
  | nil => rfl
  | cons row rest ih => simp only [rangeRowsTraced, rangeRows, ih, pointEvents, List.map_cons]

theorem InsertRowsTraced_fst (m : memoryPartition) (rows : List Row) :
    (InsertRowsTraced m rows).1 = InsertRows m rows := by
  cases rows with
  | nil => rfl
  | cons row0 rest =>
    unfold InsertRowsTraced InsertRows
    cases hro : ReadOnly m
    · cases hw : m.wal <;> simp only [rangeRowsTraced_eq, Bool.false_eq_true, if_false]
    · simp

theorem InsertRowsTraced_snd (m : memoryPartition) (row0 : Row) (rest : List Row)
    (hro : ReadOnly m = false) :
    (InsertRowsTraced m (row0 :: rest)).2 =
      (match m.wal with
        | some _ => [Event.walAppend ⟨Operation.OperationInsert, row0 :: rest⟩]
        | none => []) ++ pointEvents (row0 :: rest) := by
  unfold InsertRowsTraced
  cases hw : m.wal <;> simp only [hro, rangeRowsTraced_eq, Bool.false_eq_true, if_false]

theorem insertAll_order (batches : List (List Row)) (m : memoryPartition)
    (h : m.minTimestamp ≤ m.maxTimestamp) :
    (insertAll m batches).minTimestamp ≤ (insertAll m batches).maxTimestamp := by
  induction batches generalizing m with
  | nil => exact h
  | cons rows rest ih => exact ih _ (InsertRows_order m rows h)

theorem wrapInt64_eq (x : Int) (h0 : -2 ^ 63 ≤ x) (h1 : x < 2 ^ 63) : wrapInt64 x = x := by
  unfold wrapInt64
  have h : (x + 2 ^ 63) % 2 ^ 64 = x + 2 ^ 63 :=
    Int.emod_eq_of_lt (by omega) (by omega)
  rw [h]
  omega

/-! ## Claims -/

/-- C1: on a partition that is not read-only, `InsertRows` with a non-empty
batch returns nil and `Size()` afterwards is `Size()` before plus `len(rows)`. -/
theorem InsertRows_size (m : memoryPartition) (rows : List Row)
    (hro : ReadOnly m = false) (hne : rows ≠ []) :
    (InsertRows m rows).2 = none ∧
      Size (InsertRows m rows).1 = Size m + (rows.length : Int) := by
  cases rows with
  | nil => exact absurd rfl hne
  | cons row0 rest =>
    rw [InsertRows_writable m row0 rest hro]
    exact ⟨rfl, rfl⟩

theorem InsertRows_size_witness :
    ReadOnly fresh1s = false ∧ [cpu1000, cpu2500] ≠ [] ∧
      (InsertRows fresh1s [cpu1000, cpu2500]).2 = none ∧
      Size (InsertRows fresh1s [cpu1000, cpu2500]).1 = Size fresh1s + 2 :=
  ⟨by decide, by decide, InsertRows_size fresh1s [cpu1000, cpu2500] (by decide) (by decide)⟩

/-- C3: on a read-only partition `ReadyToBePersisted()` is true as well, and
`InsertRows` with a non-empty batch returns the "read only partition" error
and leaves the whole state as it was: size, both timestamps, the directory
with every point buffer, and the write-ahead log. -/
theorem InsertRows_readOnly_rejects (m : memoryPartition) (rows : List Row)
    (hro : ReadOnly m = true) (hne : rows ≠ []) :
    ReadyToBePersisted m = true ∧
      (InsertRows m rows).2 = some "read only partition" ∧
      (InsertRows m rows).1 = m ∧
      Size (InsertRows m rows).1 = Size m ∧
      MinTimestamp (InsertRows m rows).1 = MinTimestamp m ∧
      MaxTimestamp (InsertRows m rows).1 = MaxTimestamp m ∧
      (InsertRows m rows).1.metrics = m.metrics ∧
      (InsertRows m rows).1.wal = m.wal := by
  rw [InsertRows_readOnly m rows hro hne]
  exact ⟨hro, rfl, rfl, rfl, rfl, rfl, rfl, rfl⟩

theorem InsertRows_readOnly_rejects_witness :
    ReadOnly aged1s = true ∧ InsertRows aged1s [cpu1000] = (aged1s, some "read only partition") :=
  ⟨by decide,
    Prod.ext (InsertRows_readOnly_rejects aged1s [cpu1000] (by decide) (by decide)).2.2.1
      (InsertRows_readOnly_rejects aged1s [cpu1000] (by decide) (by decide)).2.1⟩

/-- C4: in every state, `InsertRows` with an empty batch returns the error
"no row was given" and leaves the whole state as it was, so `Size()`,
`MinTimestamp()`, `MaxTimestamp()`, the directory and the log are unchanged. -/
theorem InsertRows_empty_batch (m : memoryPartition) :
    (InsertRows m []).2 = some "no row was given" ∧
      (InsertRows m []).1 = m ∧
      Size (InsertRows m []).1 = Size m ∧
      MinTimestamp (InsertRows m []).1 = MinTimestamp m ∧
      MaxTimestamp (InsertRows m []).1 = MaxTimestamp m ∧
      (InsertRows m []).1.metrics = m.metrics ∧
      (InsertRows m []).1.wal = m.wal :=
  ⟨rfl, rfl, rfl, rfl, rfl, rfl, rfl⟩

/-- C5: `InsertRows` returns an error exactly when the batch is empty or the
partition is read-only; and whatever log is configured (none, one whose
`Append` succeeds, one whose `Append` fails), the value returned and the
resulting in-memory state are the same. -/
theorem InsertRows_error_iff (m : memoryPartition) (rows : List Row) (w1 w2 : Option WAL) :
    ((InsertRows m rows).2 ≠ none ↔ (rows = [] ∨ ReadOnly m = true)) ∧
      (InsertRows (withWal m w1) rows).2 = (InsertRows (withWal m w2) rows).2 ∧
      inMemory (InsertRows (withWal m w1) rows).1 = inMemory (InsertRows (withWal m w2) rows).1 := by
  refine ⟨?_, ?_⟩
  · rw [InsertRows_error]
    by_cases hr : rows = []
    · simp [hr]
    · cases hro : ReadOnly m <;> simp [hr]
  · cases rows with
    | nil => exact ⟨rfl, rfl⟩
    | cons row0 rest =>
      have h1 : ReadOnly (withWal m w1) = ReadOnly m := rfl
      have h2 : ReadOnly (withWal m w2) = ReadOnly m := rfl
      cases hro : ReadOnly m
      · rw [InsertRows_writable _ row0 rest (h1.trans hro),
          InsertRows_writable _ row0 rest (h2.trans hro)]
        exact ⟨rfl, rfl⟩
      · rw [InsertRows_readOnly _ _ (h1.trans hro) (by simp),
          InsertRows_readOnly _ _ (h2.trans hro) (by simp)]
        exact ⟨rfl, rfl⟩

/-- C2, as the claim states it, fails: on a fresh one-second partition the
batch `("cpu", 0, 1.0)` and then the batch `("cpu", 1000, 5.0)` are both
accepted, after which `MinTimestamp()` is `1000`, above the accepted
timestamp `0`. -/
theorem accepted_within_span_counterexample :
    ¬ (∀ (wal : Option WAL) (d : Int) (batches : List (List Row)),
        ∀ r ∈ accepted (NewMemoryPartition wal d) batches,
          MinTimestamp (insertAll (NewMemoryPartition wal d) batches) ≤ r.Timestamp ∧
          r.Timestamp ≤ MaxTimestamp (insertAll (NewMemoryPartition wal d) batches)) := by
  intro h
  have h0 := (h none 1000000000 [[cpu0], [cpu1000]] cpu0 (by decide)).1
  revert h0
  decide

/-- C2, amended: after any sequence of `InsertRows` calls on a fresh
partition, every timestamp `t` of an accepted row satisfies
`t <= MaxTimestamp()`; and when no accepted row has the timestamp `0`, which
the code reads as "minimum not set", also `MinTimestamp() <= t`. -/
theorem accepted_within_span (wal : Option WAL) (d : Int) (batches : List (List Row)) :
    (∀ r ∈ accepted (NewMemoryPartition wal d) batches,
        r.Timestamp ≤ MaxTimestamp (insertAll (NewMemoryPartition wal d) batches)) ∧
      ((∀ r ∈ accepted (NewMemoryPartition wal d) batches, r.Timestamp ≠ 0) →
        ∀ r ∈ accepted (NewMemoryPartition wal d) batches,
          MinTimestamp (insertAll (NewMemoryPartition wal d) batches) ≤ r.Timestamp) := by
  constructor
  · have h := accepted_max batches (NewMemoryPartition wal d) [] (by simp)
    simpa [MaxTimestamp] using h
  · intro hnz r hr
    have h := accepted_tracks batches (NewMemoryPartition wal d) [] (by simpa using hnz)
      (Tracks_new wal d)
    simp only [List.nil_append] at h
    exact (h.2.2.2 (List.ne_nil_of_mem hr)).2 r hr

theorem accepted_within_span_witness :
    (∀ r ∈ accepted fresh1s [[cpu1000], [], [cpu2500], [cpu0]], r.Timestamp ≠ 0) ∧
      ∀ r ∈ accepted fresh1s [[cpu1000], [], [cpu2500], [cpu0]],
        MinTimestamp (insertAll fresh1s [[cpu1000], [], [cpu2500], [cpu0]]) ≤ r.Timestamp :=
  ⟨by decide,
    (accepted_within_span none 1000000000 [[cpu1000], [], [cpu2500], [cpu0]]).2 (by decide)⟩

/-- C6, with the point buffer as section 4.3 describes it: after any sequence
of `InsertRows` calls on a fresh partition, `SelectRows(metricName, start, end)`
returns the points of the accepted rows of that metric with
`start <= t < end`, with their multiplicity and in insertion order; when every
call returned nil these are the rows of all batches; and for a metric without
an accepted row the result is empty. -/
theorem SelectRows_accepted (wal : Option WAL) (d : Int) (batches : List (List Row))
    (metricName : String) (start stop : Int) :
    (SelectRows (insertAll (NewMemoryPartition wal d) batches) metricName start stop).2 =
        inRange start stop
          ((rowsNamed metricName (accepted (NewMemoryPartition wal d) batches)).map
            Row.toDataPoint) ∧
      (allNil (NewMemoryPartition wal d) batches = true →
        (SelectRows (insertAll (NewMemoryPartition wal d) batches) metricName start stop).2 =
          inRange start stop ((rowsNamed metricName (allBatches batches)).map Row.toDataPoint)) ∧
      ((∀ r ∈ accepted (NewMemoryPartition wal d) batches, r.MetricName ≠ metricName) →
        (SelectRows (insertAll (NewMemoryPartition wal d) batches) metricName start stop).2
          = []) := by
  have hmain : (SelectRows (insertAll (NewMemoryPartition wal d) batches) metricName start
      stop).2 = inRange start stop
        ((rowsNamed metricName (accepted (NewMemoryPartition wal d) batches)).map
          Row.toDataPoint) := by
    rw [SelectRows_eq, pointsAt_insertAll]
    rfl
  refine ⟨hmain, fun hall => ?_, fun hnone => ?_⟩
  · rw [hmain, accepted_of_allNil batches _ hall]
  · have hnil : rowsNamed metricName (accepted (NewMemoryPartition wal d) batches) = [] := by
      unfold rowsNamed
      rw [List.filter_eq_nil_iff]
      intro r hr
      simpa using hnone r hr
    rw [hmain, hnil]
    rfl

theorem SelectRows_accepted_witness :
    allNil fresh1s [[cpu10, mem15], [cpu20]] = true ∧
      (SelectRows (insertAll fresh1s [[cpu10, mem15], [cpu20]]) "cpu" 10 20).2 =
        [cpu10.toDataPoint] ∧
      (∀ r ∈ accepted fresh1s [[cpu10, mem15], [cpu20]], r.MetricName ≠ "disk") ∧
      (SelectRows (insertAll fresh1s [[cpu10, mem15], [cpu20]]) "disk" 0 100).2 = [] :=
  ⟨by decide,
    ((SelectRows_accepted none 1000000000 [[cpu10, mem15], [cpu20]] "cpu" 10 20).2.1
      (by decide)).trans (by decide),
    by decide,
    (SelectRows_accepted none 1000000000 [[cpu10, mem15], [cpu20]] "disk" 0 100).2.2
      (by decide)⟩

/-- C7, with the point buffer as section 4.3 describes it: after any sequence
of `InsertRows` calls on a fresh partition, `SelectAll()` is a permutation of
the concatenated batches whose call returned nil, and the rows of each metric
come in their insertion order.  The example of the claim: after the batch
`("cpu",10,1.0), ("cpu",20,2.0), ("mem",15,3.0)` on a fresh one-hour partition
`SelectAll()` returns exactly these three rows. -/
theorem SelectAll_accepted (wal : Option WAL) (d : Int) (batches : List (List Row)) :
    (SelectAll (insertAll (NewMemoryPartition wal d) batches)).Perm
        (accepted (NewMemoryPartition wal d) batches) ∧
      (∀ name : String,
        rowsNamed name (SelectAll (insertAll (NewMemoryPartition wal d) batches)) =
          rowsNamed name (accepted (NewMemoryPartition wal d) batches)) ∧
      SelectAll (insertAll (NewMemoryPartition wal 3600000000000) [[cpu10, cpu20, mem15]]) =
        [cpu10, cpu20, mem15] := by
  refine ⟨?_, fun name => rowsNamed_SelectAll_insertAll wal d batches name, ?_⟩
  · rw [List.perm_iff_count]
    intro a
    have hp : (fun r : Row => decide (r.MetricName = a.MetricName)) a = true := by simp
    have h1 := @List.count_filter Row _ _ (fun r : Row => decide (r.MetricName = a.MetricName)) a
      (SelectAll (insertAll (NewMemoryPartition wal d) batches)) hp
    have h2 := @List.count_filter Row _ _ (fun r : Row => decide (r.MetricName = a.MetricName)) a
      (accepted (NewMemoryPartition wal d) batches) hp
    have h3 := rowsNamed_SelectAll_insertAll wal d batches a.MetricName
    unfold rowsNamed at h3
    rw [← h1, ← h2, h3]
  · cases wal <;> rfl

/-- C8: after any sequence of `InsertRows` calls on a fresh partition in which
every row timestamp is strictly positive, `MinTimestamp()` is the smallest and
`MaxTimestamp()` the largest timestamp of the rows accepted so far (both are
`0` while nothing was accepted).  The scenario of the claim: with a partition
duration of 1000 ms, after `("cpu", 1000, 5.0)` and then `("cpu", 2500, 6.0)`
the minimum is `1000`, the maximum `2500`, the partition is read-only and
every further non-empty insert returns the read-only error. -/
theorem timestamps_are_extremes (wal : Option WAL) (d : Int) (batches : List (List Row)) :
    ((∀ rows ∈ batches, ∀ r ∈ rows, 0 < r.Timestamp) →
      (accepted (NewMemoryPartition wal d) batches = [] →
        MinTimestamp (insertAll (NewMemoryPartition wal d) batches) = 0 ∧
        MaxTimestamp (insertAll (NewMemoryPartition wal d) batches) = 0) ∧
      (accepted (NewMemoryPartition wal d) batches ≠ [] →
        (∃ r ∈ accepted (NewMemoryPartition wal d) batches,
          MinTimestamp (insertAll (NewMemoryPartition wal d) batches) = r.Timestamp) ∧
        (∀ r ∈ accepted (NewMemoryPartition wal d) batches,
          MinTimestamp (insertAll (NewMemoryPartition wal d) batches) ≤ r.Timestamp) ∧
        (∃ r ∈ accepted (NewMemoryPartition wal d) batches,
          MaxTimestamp (insertAll (NewMemoryPartition wal d) batches) = r.Timestamp) ∧
        (∀ r ∈ accepted (NewMemoryPartition wal d) batches,
          r.Timestamp ≤ MaxTimestamp (insertAll (NewMemoryPartition wal d) batches)))) ∧
    (MinTimestamp (insertAll (NewMemoryPartition wal 1000000000) [[cpu1000], [cpu2500]]) = 1000 ∧
      MaxTimestamp (insertAll (NewMemoryPartition wal 1000000000) [[cpu1000], [cpu2500]]) = 2500 ∧
      ReadOnly (insertAll (NewMemoryPartition wal 1000000000) [[cpu1000], [cpu2500]]) = true ∧
      ∀ rows : List Row, rows ≠ [] →
        (InsertRows (insertAll (NewMemoryPartition wal 1000000000) [[cpu1000], [cpu2500]])
          rows).2 = some "read only partition") := by
  refine ⟨?_, ?_⟩
  · intro hpos
    have hacc : ∀ (m : memoryPartition) (bs : List (List Row)),
        (∀ rows ∈ bs, ∀ r ∈ rows, 0 < r.Timestamp) → ∀ r ∈ accepted m bs, 0 < r.Timestamp := by
      intro m bs
      induction bs generalizing m with
      | nil => simp [accepted]
      | cons rows rest ih =>
        intro hb r hr
        simp only [accepted, List.mem_append] at hr
        rcases hr with hr | hr
        · split_ifs at hr
          · exact hb rows (List.mem_cons_self _ _) r hr
          · simp at hr
        · exact ih _ (fun rows2 h2 => hb rows2 (List.mem_cons_of_mem _ h2)) r hr
    have hp := hacc (NewMemoryPartition wal d) batches hpos
    have h := accepted_tracks batches (NewMemoryPartition wal d) []
      (by simpa using fun r hr => (hp r hr).ne') (Tracks_new wal d)
    simp only [List.nil_append] at h
    obtain ⟨h1, h2, h3, h4⟩ := h
    refine ⟨fun hnil => ⟨h3 hnil, ?_⟩, fun hne => ?_⟩
    · rcases h2 with h2 | ⟨r, hr, -⟩
      · exact h2
      · rw [hnil] at hr; simp at hr
    · obtain ⟨h5, h6⟩ := h4 hne
      refine ⟨h5, h6, ?_, h1⟩
      rcases h2 with h2 | h2
      · obtain ⟨r, hr⟩ := List.exists_mem_of_ne_nil _ hne
        have := h1 r hr
        have := hp r hr
        omega
      · exact h2
  · have hro : ReadOnly (insertAll (NewMemoryPartition wal 1000000000) [[cpu1000], [cpu2500]])
        = true := by
      cases wal <;> rfl
    refine ⟨by cases wal <;> rfl, by cases wal <;> rfl, hro, fun rows hne => ?_⟩
    rw [InsertRows_readOnly _ rows hro hne]

theorem timestamps_are_extremes_witness :
    (∀ rows ∈ [[cpu1000], [cpu2500], [cpu1000]], ∀ r ∈ rows, 0 < r.Timestamp) ∧
      accepted fresh1s [[cpu1000], [cpu2500], [cpu1000]] ≠ [] ∧
      (∀ r ∈ accepted fresh1s [[cpu1000], [cpu2500], [cpu1000]],
        MinTimestamp (insertAll fresh1s [[cpu1000], [cpu2500], [cpu1000]]) ≤ r.Timestamp) ∧
      (∀ r ∈ accepted fresh1s [[cpu1000], [cpu2500], [cpu1000]],
        r.Timestamp ≤ MaxTimestamp (insertAll fresh1s [[cpu1000], [cpu2500], [cpu1000]])) :=
  ⟨by decide, by decide,
    (((timestamps_are_extremes none 1000000000 [[cpu1000], [cpu2500], [cpu1000]]).1
      (by decide)).2 (by decide)).2.1,
    (((timestamps_are_extremes none 1000000000 [[cpu1000], [cpu2500], [cpu1000]]).1
      (by decide)).2 (by decide)).2.2.2⟩

/-- C9: for every state and every `InsertRows` call, successful or not,
`MaxTimestamp()` does not decrease, and when `MinTimestamp()` was set (not
`0`) before the call it does not increase. -/
theorem InsertRows_monotone (m : memoryPartition) (rows : List Row) :
    MaxTimestamp m ≤ MaxTimestamp (InsertRows m rows).1 ∧
      (MinTimestamp m ≠ 0 → MinTimestamp (InsertRows m rows).1 ≤ MinTimestamp m) := by
  unfold MaxTimestamp MinTimestamp
  by_cases hok : (InsertRows m rows).2 = none
  · obtain ⟨lo, hi, -, -, -, hmin, hmax⟩ := InsertRows_span m rows hok
    rw [hmin, hmax]
    constructor
    · split_ifs <;> omega
    · intro hne
      split_ifs with hc
      · rcases hc with hc | hc
        · exact absurd hc hne
        · omega
      · exact le_refl _
  · rw [InsertRows_rejected m rows hok]
    exact ⟨le_refl _, fun _ => le_refl _⟩

theorem InsertRows_monotone_witness :
    MinTimestamp (InsertRows fresh1s [cpu2500]).1 ≠ 0 ∧
      MinTimestamp (InsertRows (InsertRows fresh1s [cpu2500]).1 [cpu1000]).1 ≤
        MinTimestamp (InsertRows fresh1s [cpu2500]).1 :=
  ⟨by decide, (InsertRows_monotone (InsertRows fresh1s [cpu2500]).1 [cpu1000]).2 (by decide)⟩

/-- C10: in every state reached from a fresh partition by `InsertRows`,
`SelectRows` and `SelectAll` calls, with arbitrary timestamps,
`MinTimestamp() <= MaxTimestamp()`. -/
theorem minTimestamp_le_maxTimestamp (wal : Option WAL) (d : Int) (cs : List Call) :
    MinTimestamp (runCalls (NewMemoryPartition wal d) cs) ≤
      MaxTimestamp (runCalls (NewMemoryPartition wal d) cs) := by
  have hstep : ∀ (m : memoryPartition) (c : Call),
      m.minTimestamp ≤ m.maxTimestamp → (c.run m).minTimestamp ≤ (c.run m).maxTimestamp := by
    intro m c h
    cases c with
    | insertRows rows => exact InsertRows_order m rows h
    | selectRows metricName start stop =>
      simp only [Call.run, SelectRows, getMetric]
      cases Load m.metrics metricName <;> exact h
    | selectAll => exact h
  have hall : ∀ (cs : List Call) (m : memoryPartition),
      m.minTimestamp ≤ m.maxTimestamp →
      (runCalls m cs).minTimestamp ≤ (runCalls m cs).maxTimestamp := by
    intro cs
    induction cs with
    | nil => intro m h; exact h
    | cons c rest ih =>
      intro m h
      simp only [runCalls, List.foldl_cons]
      exact ih (c.run m) (hstep m c h)
  exact hall cs _ (le_refl _)

/-- C11, with the point buffer as section 4.3 describes it: in every state
reached from a fresh partition by `InsertRows`, `SelectRows` and `SelectAll`
calls, `Size()` is the total number of points held by the point buffers of the
directory, and so `len(SelectAll())` equals `Size()`. -/
theorem size_counts_points (wal : Option WAL) (d : Int) (cs : List Call) :
    Size (runCalls (NewMemoryPartition wal d) cs) =
        (totalPoints (runCalls (NewMemoryPartition wal d) cs).metrics : Int) ∧
      ((SelectAll (runCalls (NewMemoryPartition wal d) cs)).length : Int) =
        Size (runCalls (NewMemoryPartition wal d) cs) := by
  have hall : ∀ (cs : List Call) (m : memoryPartition),
      m.size = (totalPoints m.metrics : Int) →
      (runCalls m cs).size = (totalPoints (runCalls m cs).metrics : Int) := by
    intro cs
    induction cs with
    | nil => intro m h; exact h
    | cons c rest ih =>
      intro m h
      simp only [runCalls, List.foldl_cons]
      exact ih (c.run m) (Call_run_counts m c h)
  have h := hall cs (NewMemoryPartition wal d) rfl
  refine ⟨h, ?_⟩
  rw [SelectAll_eq, length_allRows]
  exact h.symm

/-- C12: once `ReadOnly()` is true it is still true after any one call of
`InsertRows`, `SelectRows` or `SelectAll`, and hence after any sequence of
such calls: a read-only partition does not become writable again. -/
theorem ReadOnly_stays (m : memoryPartition) (hro : ReadOnly m = true) :
    (∀ c : Call, ReadOnly (c.run m) = true) ∧
      ∀ cs : List Call, ReadOnly (runCalls m cs) = true := by
  have hstep : ∀ (m : memoryPartition) (c : Call),
      ReadOnly m = true → ReadOnly (c.run m) = true := by
    intro m c h
    cases c with
    | insertRows rows =>
      have herr : (InsertRows m rows).2 ≠ none := by
        rw [InsertRows_error]
        split_ifs <;> simp
      simp only [Call.run, InsertRows_rejected m rows herr]
      exact h
    | selectRows metricName start stop =>
      simp only [Call.run, SelectRows]
      cases hl : Load m.metrics metricName with
      | some v => rw [getMetric_present m _ v hl]; exact h
      | none => rw [getMetric_absent m _ hl]; exact h
    | selectAll => exact h
  refine ⟨fun c => hstep m c hro, fun cs => ?_⟩
  induction cs generalizing m with
  | nil => exact hro
  | cons c rest ih =>
    simp only [runCalls, List.foldl_cons]
    exact ih (c.run m) (hstep m c hro)

theorem ReadOnly_stays_witness :
    ReadOnly aged1s = true ∧
      ReadOnly (runCalls aged1s
        [Call.insertRows [cpu10], Call.selectRows "mem" 0 100, Call.selectAll]) = true :=
  ⟨by decide, (ReadOnly_stays aged1s (by decide)).2 _⟩

/-- C14: `ReadyToBePersisted()` returns what `ReadOnly()` returns; both only
read the two timestamps and the duration, so the state they are called on is
the state after the call. -/
theorem ReadyToBePersisted_eq_ReadOnly (m : memoryPartition) :
    ReadyToBePersisted m = ReadOnly m ∧
      ReadOnly m =
        decide (wrapInt64 (m.maxTimestamp - m.minTimestamp) > m.partitionDuration) :=
  ⟨rfl, rfl⟩

/-- C15: `getMetric(name)` returns the buffer stored under `name` and leaves
the directory as it is when there is one; otherwise it adds one empty buffer
(no points, `lastIndex` -1) under `name`, returns it and leaves every other
entry alone.  A second `getMetric(name)` returns the same buffer and changes
nothing, and a directory with at most one buffer per name stays so. -/
theorem getMetric_get_or_create (m : memoryPartition) (name : String) :
    (∀ v : metric, Load m.metrics name = some v → getMetric m name = (m, v)) ∧
      (Load m.metrics name = none →
        (getMetric m name).2 = { name := name, points := [], lastIndex := -1 } ∧
        (getMetric m name).1 =
          { m with metrics :=
              m.metrics ++ [(name, { name := name, points := [], lastIndex := -1 })] } ∧
        ∀ n : String, n ≠ name →
          Load (getMetric m name).1.metrics n = Load m.metrics n) ∧
      Load (getMetric m name).1.metrics name = some (getMetric m name).2 ∧
      getMetric (getMetric m name).1 name = getMetric m name ∧
      ((keys m.metrics).Nodup → (keys (getMetric m name).1.metrics).Nodup) := by
  refine ⟨fun v hv => getMetric_present m name v hv, fun hn => ?_, ?_, ?_, fun hnd => ?_⟩
  · rw [getMetric_absent m name hn]
    refine ⟨rfl, rfl, fun n hne => ?_⟩
    rw [← Store_absent m.metrics name _ hn, Load_Store, if_neg (fun e => hne e.symm)]
  · cases hl : Load m.metrics name with
    | some v => rw [getMetric_present m name v hl]; exact hl
    | none =>
      rw [getMetric_absent m name hl]
      rw [← Store_absent m.metrics name _ hl, Load_Store, if_pos rfl]
  · cases hl : Load m.metrics name with
    | some v =>
      rw [getMetric_present m name v hl]
      exact getMetric_present m name v hl
    | none =>
      rw [getMetric_absent m name hl]
      apply getMetric_present
      rw [← Store_absent m.metrics name _ hl, Load_Store, if_pos rfl]
  · cases hl : Load m.metrics name with
    | some v => rw [getMetric_present m name v hl]; exact hnd
    | none =>
      rw [getMetric_absent m name hl]
      rw [← Store_absent m.metrics name _ hl]
      exact nodup_keys_Store _ _ _ hnd

theorem getMetric_get_or_create_witness :
    Load fresh1s.metrics "cpu" = none ∧
      (getMetric fresh1s "cpu").2 = { name := "cpu", points := [], lastIndex := -1 } ∧
      (keys fresh1s.metrics).Nodup ∧
      (keys (getMetric fresh1s "cpu").1.metrics).Nodup :=
  ⟨by decide, ((getMetric_get_or_create fresh1s "cpu").2.1 (by decide)).1,
    by decide, (getMetric_get_or_create fresh1s "cpu").2.2.2.2 (by decide)⟩

/-- C18: `SelectRows`, for a known or an unknown metric and any range, leaves
`Size()`, `MinTimestamp()`, `MaxTimestamp()`, `ReadOnly()` and what a following
`SelectAll()` returns unchanged; it leaves the whole state unchanged when the
metric has a buffer and otherwise only adds an empty buffer for it.
`SelectAll` writes nothing. -/
theorem reads_keep_state (m : memoryPartition) (metricName : String) (start stop : Int) :
    Size (SelectRows m metricName start stop).1 = Size m ∧
      MinTimestamp (SelectRows m metricName start stop).1 = MinTimestamp m ∧
      MaxTimestamp (SelectRows m metricName start stop).1 = MaxTimestamp m ∧
      ReadOnly (SelectRows m metricName start stop).1 = ReadOnly m ∧
      SelectAll (SelectRows m metricName start stop).1 = SelectAll m ∧
      (Load m.metrics metricName ≠ none → (SelectRows m metricName start stop).1 = m) ∧
      (Load m.metrics metricName = none →
        (SelectRows m metricName start stop).1 =
          { m with metrics :=
              m.metrics ++ [(metricName,
                { name := metricName, points := [], lastIndex := -1 })] }) ∧
      Call.run m Call.selectAll = m := by
  unfold SelectRows
  cases hl : Load m.metrics metricName with
  | some v =>
    rw [getMetric_present m _ v hl]
    exact ⟨rfl, rfl, rfl, rfl, rfl, fun _ => rfl, fun h => by simp at h, rfl⟩
  | none =>
    rw [getMetric_absent m _ hl]
    refine ⟨rfl, rfl, rfl, rfl, ?_, fun h => absurd rfl h, fun _ => rfl, rfl⟩
    rw [SelectAll_eq, SelectAll_eq]
    simp [allRows_append, allRows, rowsOf, emptyMetric]

theorem reads_keep_state_witness :
    Load aged1s.metrics "cpu" ≠ none ∧ (SelectRows aged1s "cpu" 0 2000).1 = aged1s ∧
      Load aged1s.metrics "mem" = none ∧
      (SelectRows aged1s "mem" 0 2000).1 =
        { aged1s with metrics :=
            aged1s.metrics ++ [("mem", { name := "mem", points := [], lastIndex := -1 })] } :=
  ⟨by decide, (reads_keep_state aged1s "cpu" 0 2000).2.2.2.2.2.1 (by decide),
    by decide, (reads_keep_state aged1s "mem" 0 2000).2.2.2.2.2.2.1 (by decide)⟩

/-- C13, as the claim states it, fails: on a fresh one-second partition the
single batch with the timestamps `-2^63` and `2^63 - 1` is accepted; the true
span `2^64 - 1` exceeds the duration, but the `int64` subtraction wraps to
`-1` and `ReadOnly()` returns false. -/
theorem ReadOnly_iff_span_counterexample :
    ¬ (∀ (wal : Option WAL) (d : Int) (batches : List (List Row)),
        ReadOnly (insertAll (NewMemoryPartition wal d) batches) = true ↔
          MaxTimestamp (insertAll (NewMemoryPartition wal d) batches) -
              MinTimestamp (insertAll (NewMemoryPartition wal d) batches) >
            (insertAll (NewMemoryPartition wal d) batches).partitionDuration) := by
  intro h
  have h0 := (h none 1000000000 [[cpuMinInt64, cpuMaxInt64]]).2
  revert h0
  decide

/-- C13, amended: in every state reached from a fresh partition by
`InsertRows` calls, `ReadOnly()` is true exactly when the difference
`MaxTimestamp() - MinTimestamp()` as `int64` computes it, wrapped to 64 bits,
is greater than `partitionDuration`; whenever the true span is below `2^63`
this is the true span. -/
theorem ReadOnly_iff_span (wal : Option WAL) (d : Int) (batches : List (List Row)) :
    (ReadOnly (insertAll (NewMemoryPartition wal d) batches) = true ↔
        wrapInt64 (MaxTimestamp (insertAll (NewMemoryPartition wal d) batches) -
            MinTimestamp (insertAll (NewMemoryPartition wal d) batches)) >
          (insertAll (NewMemoryPartition wal d) batches).partitionDuration) ∧
      (MaxTimestamp (insertAll (NewMemoryPartition wal d) batches) -
          MinTimestamp (insertAll (NewMemoryPartition wal d) batches) < 2 ^ 63 →
        (ReadOnly (insertAll (NewMemoryPartition wal d) batches) = true ↔
          MaxTimestamp (insertAll (NewMemoryPartition wal d) batches) -
              MinTimestamp (insertAll (NewMemoryPartition wal d) batches) >
            (insertAll (NewMemoryPartition wal d) batches).partitionDuration)) := by
  have hord := insertAll_order batches (NewMemoryPartition wal d) (le_refl _)
  refine ⟨by simp [ReadOnly], fun hlt => ?_⟩
  unfold MaxTimestamp MinTimestamp at hlt
  have hw := wrapInt64_eq
    ((insertAll (NewMemoryPartition wal d) batches).maxTimestamp -
      (insertAll (NewMemoryPartition wal d) batches).minTimestamp) (by omega) hlt
  simp [ReadOnly, MaxTimestamp, MinTimestamp, hw]

theorem ReadOnly_iff_span_witness :
    MaxTimestamp (insertAll fresh1s [[cpu1000], [cpu2500]]) -
        MinTimestamp (insertAll fresh1s [[cpu1000], [cpu2500]]) < 2 ^ 63 ∧
      (ReadOnly (insertAll fresh1s [[cpu1000], [cpu2500]]) = true ↔
        MaxTimestamp (insertAll fresh1s [[cpu1000], [cpu2500]]) -
            MinTimestamp (insertAll fresh1s [[cpu1000], [cpu2500]]) >
          (insertAll fresh1s [[cpu1000], [cpu2500]]).partitionDuration) :=
  ⟨by decide, (ReadOnly_iff_span none 1000000000 [[cpu1000], [cpu2500]]).2 (by decide)⟩

/-- C16: two goroutines call `getMetric("cpu")` on an empty directory.  When
the first returns before the second starts, both get the same buffer.  When
both run `Load` before either runs `Store`, the first gets buffer `0`, the
second buffer `1`, the directory keeps buffer `1` only, and a point inserted
through the first goroutine's pointer is not among the points of the buffer
the directory holds. -/
theorem getMetric_race :
    raceRun ⟨[], []⟩ (.beforeLoad "cpu") (.beforeLoad "cpu") [false, false, true] =
        (⟨[emptyMetric "cpu"], [("cpu", 0)]⟩, .returned 0, .returned 0) ∧
      raceRun ⟨[], []⟩ (.beforeLoad "cpu") (.beforeLoad "cpu") [false, true, false, true] =
        (⟨[emptyMetric "cpu", emptyMetric "cpu"], [("cpu", 1)]⟩, .returned 0, .returned 1) ∧
      pointsSeen
        (insertPointAt
          (raceRun ⟨[], []⟩ (.beforeLoad "cpu") (.beforeLoad "cpu")
            [false, true, false, true]).1 0 cpu10.toDataPoint) "cpu" = [] := by
  decide

/-- C17: on a writable partition with a log and a non-empty batch,
`InsertRows` makes exactly one `Append` call, with the entry tagged
`OperationInsert` that carries the whole batch in its order, before the first
`insertPoint`, so the log afterwards is the log before plus that entry.
Without a log it makes the `insertPoint` calls only and leaves the same
in-memory state. -/
theorem InsertRows_logs_first (m : memoryPartition) (w : WAL) (rows : List Row)
    (hw : m.wal = some w) (hro : ReadOnly m = false) (hne : rows ≠ []) :
    (InsertRowsTraced m rows).1 = InsertRows m rows ∧
      (InsertRowsTraced m rows).2 =
        Event.walAppend ⟨Operation.OperationInsert, rows⟩ :: pointEvents rows ∧
      (InsertRows m rows).1.wal =
        some { entries := w.entries ++ [⟨Operation.OperationInsert, rows⟩],
               failing := w.failing } ∧
      (InsertRowsTraced (withWal m none) rows).1 = InsertRows (withWal m none) rows ∧
      (InsertRowsTraced (withWal m none) rows).2 = pointEvents rows ∧
      (InsertRows (withWal m none) rows).1.wal = none ∧
      inMemory (InsertRows (withWal m none) rows).1 = inMemory (InsertRows m rows).1 := by
  cases rows with
  | nil => exact absurd rfl hne
  | cons row0 rest =>
    have hro2 : ReadOnly (withWal m none) = false := hro
    refine ⟨InsertRowsTraced_fst _ _, ?_, ?_, InsertRowsTraced_fst _ _, ?_, ?_, ?_⟩
    · rw [InsertRowsTraced_snd m row0 rest hro, hw]
      rfl
    · rw [InsertRows_writable m row0 rest hro, hw]
      rfl
    · rw [InsertRowsTraced_snd _ row0 rest hro2]
      rfl
    · rw [InsertRows_writable _ row0 rest hro2]
      rfl
    · rw [InsertRows_writable _ row0 rest hro2, InsertRows_writable m row0 rest hro]
      rfl

theorem InsertRows_logs_first_witness :
    (InsertRowsTraced (withWal fresh1s (some emptyWal)) [cpu10, mem15]).2 =
        [Event.walAppend ⟨Operation.OperationInsert, [cpu10, mem15]⟩,
          Event.insertPoint "cpu" cpu10.toDataPoint,
          Event.insertPoint "mem" mem15.toDataPoint] ∧
      (InsertRows (withWal fresh1s (some emptyWal)) [cpu10, mem15]).1.wal =
        some { entries := [⟨Operation.OperationInsert, [cpu10, mem15]⟩], failing := false } :=
  ⟨(InsertRows_logs_first (withWal fresh1s (some emptyWal)) emptyWal [cpu10, mem15]
      rfl (by decide) (by decide)).2.1,
    (InsertRows_logs_first (withWal fresh1s (some emptyWal)) emptyWal [cpu10, mem15]
      rfl (by decide) (by decide)).2.2.1⟩

/-- C19: for a duration of at least `0` ms the partition `NewMemoryPartition`
returns has size `0`, both timestamps `0`, an empty `SelectAll()`, and is
neither read-only nor ready to be persisted; its first `InsertRows` with any
non-empty batch, whatever its timestamps, returns nil, calls `insertPoint`
once for every row in batch order and adds `len(rows)` to the size. -/
theorem NewMemoryPartition_fresh (wal : Option WAL) (d : Int)
    (hd : 0 ≤ (NewMemoryPartition wal d).partitionDuration) :
    Size (NewMemoryPartition wal d) = 0 ∧
      MinTimestamp (NewMemoryPartition wal d) = 0 ∧
      MaxTimestamp (NewMemoryPartition wal d) = 0 ∧
      SelectAll (NewMemoryPartition wal d) = [] ∧
      ReadOnly (NewMemoryPartition wal d) = false ∧
      ReadyToBePersisted (NewMemoryPartition wal d) = false ∧
      ∀ rows : List Row, rows ≠ [] →
        (InsertRows (NewMemoryPartition wal d) rows).2 = none ∧
        (InsertRowsTraced (NewMemoryPartition wal d) rows).1 =
          InsertRows (NewMemoryPartition wal d) rows ∧
        (InsertRowsTraced (NewMemoryPartition wal d) rows).2.filter Event.isInsertPoint =
          pointEvents rows ∧
        (InsertRows (NewMemoryPartition wal d) rows).1.metrics = rows.foldl addRow [] ∧
        Size (InsertRows (NewMemoryPartition wal d) rows).1 = (rows.length : Int) := by
  have hro : ReadOnly (NewMemoryPartition wal d) = false := by
    have h0 : wrapInt64 0 = 0 := by decide
    simp only [ReadOnly, MaxTimestamp, MinTimestamp, NewMemoryPartition, sub_self, h0,
      decide_eq_false_iff_not, not_lt]
    exact hd
  refine ⟨rfl, rfl, rfl, rfl, hro, hro, fun rows hne => ?_⟩
  cases rows with
  | nil => exact absurd rfl hne
  | cons row0 rest =>
    refine ⟨?_, InsertRowsTraced_fst _ _, ?_, ?_, ?_⟩
    · rw [InsertRows_writable _ row0 rest hro]
    · rw [InsertRowsTraced_snd _ row0 rest hro]
      have hp : ∀ rows : List Row,
          (pointEvents rows).filter Event.isInsertPoint = pointEvents rows := by
        intro rows
        rw [List.filter_eq_self]
        intro e he
        obtain ⟨r, -, rfl⟩ := List.mem_map.1 he
        rfl
      rw [List.filter_append, hp]
      cases wal <;> simp [NewMemoryPartition, Event.isInsertPoint]
    · rw [InsertRows_writable _ row0 rest hro]
      rfl
    · rw [InsertRows_writable _ row0 rest hro]
      simp [Size, NewMemoryPartition]

theorem NewMemoryPartition_fresh_witness :
    0 ≤ (NewMemoryPartition none 1000000000).partitionDuration ∧
      2500 - 1000 > (NewMemoryPartition none 1000000000).partitionDuration ∧
      (InsertRows (NewMemoryPartition none 1000000000) [cpu1000, cpu2500]).2 = none ∧
      Size (InsertRows (NewMemoryPartition none 1000000000) [cpu1000, cpu2500]).1 = 2 :=
  ⟨by decide, by decide,
    ((NewMemoryPartition_fresh none 1000000000 (by decide)).2.2.2.2.2.2
      [cpu1000, cpu2500] (by decide)).1,
    ((NewMemoryPartition_fresh none 1000000000 (by decide)).2.2.2.2.2.2
      [cpu1000, cpu2500] (by decide)).2.2.2.2⟩

end Tstorage
